import Mathlib

/-!
Verification of the quantitative core of the kelly_criterion_portfolio
repository (kelly_criterion_portfolio.py, asset_simulation.py,
file_input_output.py).  Floating-point arithmetic is modelled exactly over
the rationals; numerical library calls with no closed form (eigenvalue
computation, random draws, the quadprog solver) are modelled as explicit
oracle arguments constrained by the documented contract of the library
routine.  Matrices handed to numpy are modelled either as Mathlib matrices
over `Fin n` (when the code guarantees squareness) or as the `NDArray`
record below (when the code itself checks shapes at run time).
-/

namespace KellyPortfolio

open Matrix

/-- Model of a numpy ndarray over the rationals: a shape (list of dimension
sizes, as returned by `array.shape`) together with an entry function from
multi-indices to values.  Only entries whose multi-index is within the
shape are ever meaningful. -/
structure NDArray where
  shape : List ℕ
  entry : List ℕ → ℚ

/-- Structured counterpart of the `message` strings produced by
`is_matrix_pos_semidef` (asset_simulation.py lines 162-215 and its verbatim
copy in kelly_criterion_portfolio.py lines 412-466):
`needTwoDimensions` is the string "Matrix needs to have 2 dimensions",
`needSquare` is "Matrix needs to be square",
`notHermitian` is "Matrix is not Hermitian - equal to complex conjugate of itself",
`negativeEigenvalue v` is "Matrix has eigenvalue of {v}", carrying the
offending eigenvalue. -/
inductive PsdMessage where
  | needTwoDimensions
  | needSquare
  | notHermitian
  | negativeEigenvalue (v : ℚ)
deriving DecidableEq

/-- Model of the dictionary returned by `is_matrix_pos_semidef`: the
`pass_test` boolean plus the (possibly absent) failure message. -/
structure PsdResult where
  pass_test : Bool
  message : Option PsdMessage
deriving DecidableEq

/-- Model of `np.array_equal(test_matrix, np.matrix.getH(test_matrix))` for a
real-valued 2-D array with `rows` rows and `cols` columns: the conjugate
transpose of a real array is its transpose, and `np.array_equal` compares
every in-shape entry. -/
def hermitianEqualB (A : NDArray) (rows cols : ℕ) : Bool :=
  (List.range rows).all fun i =>
    (List.range cols).all fun j => A.entry [i, j] == A.entry [j, i]

/-- Translation of `is_matrix_pos_semidef` (asset_simulation.py lines
162-215; the copy in kelly_criterion_portfolio.py lines 412-466 has the
same behaviour).  The eigenvalue list computed by `np.linalg.eigvals` is an
explicit oracle argument `eigvals`; the code scans it in order and reports
the first negative entry. -/
def is_matrix_pos_semidef (test_matrix : NDArray) (eigvals : List ℚ) : PsdResult :=
  if test_matrix.shape.length ≠ 2 then
    { pass_test := false, message := some .needTwoDimensions }
  else if test_matrix.shape.getD 0 0 ≠ test_matrix.shape.getD 1 0 then
    { pass_test := false, message := some .needSquare }
  else if ¬ hermitianEqualB test_matrix (test_matrix.shape.getD 0 0) (test_matrix.shape.getD 1 0) then
    { pass_test := false, message := some .notHermitian }
  else
    match eigvals.find? (fun v => decide (v < 0)) with
    | some v => { pass_test := false, message := some (.negativeEigenvalue v) }
    | none => { pass_test := true, message := none }

/-- Structured counterpart of the error messages of
`trial_pos_semidef_matrix` (asset_simulation.py lines 472-485):
`needTwoDimensions` is "Matrix needs to have 2 dimensions", `needSquare` is
"Matrix needs to be square", `notSymmetric` is "Matrix is not symmetric". -/
inductive TrialError where
  | needTwoDimensions
  | needSquare
  | notSymmetric
deriving DecidableEq

/-- Translation of the input-validation prefix of `trial_pos_semidef_matrix`
(asset_simulation.py lines 470-485): the dimension check, the squareness
check and the `np.array_equal(test_matrix, test_matrix.T)` symmetry check.
Returns the error that makes the function return `any_errors = True`, or
`none` when control reaches the eigendecomposition. -/
def trial_checks (test_matrix : NDArray) : Option TrialError :=
  if test_matrix.shape.length ≠ 2 then some .needTwoDimensions
  else if test_matrix.shape.getD 0 0 ≠ test_matrix.shape.getD 1 0 then some .needSquare
  else if ¬ hermitianEqualB test_matrix (test_matrix.shape.getD 0 0) (test_matrix.shape.getD 1 0) then
    some .notSymmetric
  else none

/-- Exact inverse of a rational matrix, `np.linalg.inv` in exact arithmetic:
the reciprocal of the determinant times the adjugate.  Agrees with the
Mathlib inverse `A⁻¹` over the field ℚ. -/
def matInv {n : ℕ} (A : Matrix (Fin n) (Fin n) ℚ) : Matrix (Fin n) (Fin n) ℚ :=
  A.det⁻¹ • A.adjugate

/-- Translation of the repair part of `trial_pos_semidef_matrix`
(asset_simulation.py lines 450-517) for a square matrix.  The
eigendecomposition computed by `np.linalg.eig` enters as the oracle
arguments `test_eigenvalues` and `test_eigenvectors` (the matrix whose
columns are the eigenvectors); each call `np.random.rand()` enters as
`rand i`, one independent draw per eigenvalue index.  The code keeps the
eigenvalues that are `>= 0.0`, replaces the others with `rand / 10`,
and returns `matrix_p * matrix_d * np.linalg.inv(matrix_p)`. -/
def trial_pos_semidef_matrix {n : ℕ} (test_matrix : Matrix (Fin n) (Fin n) ℚ)
    (test_eigenvalues : Fin n → ℚ) (test_eigenvectors : Matrix (Fin n) (Fin n) ℚ)
    (rand : Fin n → ℚ) : Except TrialError (Matrix (Fin n) (Fin n) ℚ) :=
  if test_matrixᵀ ≠ test_matrix then .error .notSymmetric
  else
    let matrix_d := Matrix.diagonal
      (fun i => if 0 ≤ test_eigenvalues i then test_eigenvalues i else rand i / 10)
    .ok (test_eigenvectors * matrix_d * matInv test_eigenvectors)

/-- View of a square rational matrix as a numpy-style 2-D array of side `d`. -/
def matrixNDArray (d : ℕ) (M : ℕ → ℕ → ℚ) : NDArray :=
  { shape := [d, d], entry := fun idx => M (idx.getD 0 0) (idx.getD 1 0) }

/-- Single in-place assignment `M[r, c] = v` on a matrix modelled as a
function from index pairs to values. -/
def writeEntry (M : ℕ → ℕ → ℚ) (r c : ℕ) (v : ℚ) : ℕ → ℕ → ℚ :=
  fun i j => if i = r ∧ j = c then v else M i j

/-- Translation of the shape-matrix reconstruction loop of
`decode_lh_parameters_students_t` (asset_simulation.py lines 42-69).  The
state carries the running `addend` (an integer, since it can go negative
for larger dimensions) and the matrix being filled; for each column the
first inner loop mirrors the already-filled lower triangle into the upper
triangle and the second inner loop fills the lower triangle from the flat
parameter vector.  `decode_column_step` is the body of the outer loop,
processing one column. -/
def decode_column_step (parameters : ℕ → ℚ) (num_dimensions : ℕ)
    (st : ℤ × (ℕ → ℕ → ℚ)) (current_column : ℕ) : ℤ × (ℕ → ℕ → ℚ) :=
  let addend : ℤ := st.1 - (current_column : ℤ)
  let M1 := (List.range current_column).foldl
    (fun M current_row1 => writeEntry M current_row1 current_column (M current_column current_row1))
    st.2
  let M2 := (List.range' current_column (num_dimensions - current_column)).foldl
    (fun M current_row2 =>
      writeEntry M current_row2 current_column
        (parameters ((current_row2 : ℤ) + (current_column * num_dimensions : ℕ) + addend).toNat))
    M1
  (addend, M2)

/-- Shape matrix reconstructed by `decode_lh_parameters_students_t`: the
outer column loop folded over all columns, starting from the zero matrix
and the initial `addend = num_dimensions`. -/
def decode_shape_matrix (parameters : ℕ → ℚ) (num_dimensions : ℕ) : ℕ → ℕ → ℚ :=
  ((List.range num_dimensions).foldl (decode_column_step parameters num_dimensions)
    (((num_dimensions : ℤ), fun _ _ => (0 : ℚ)) : ℤ × (ℕ → ℕ → ℚ))).2

/-- Model of the dictionary returned by `decode_lh_parameters_students_t`. -/
structure StudentsTParameters where
  mean_vector : ℕ → ℚ
  shape_matrix : ℕ → ℕ → ℚ
  degrees_freedom : ℚ

/-- Translation of `decode_lh_parameters_students_t` (asset_simulation.py
lines 42-69).  `num_parameters` is the length of the flat parameter
vector, used to model the Python `parameters[-1]` access. -/
def decode_lh_parameters_students_t (parameters : ℕ → ℚ) (num_dimensions num_parameters : ℕ) :
    StudentsTParameters :=
  { mean_vector := fun i => if i < num_dimensions then parameters i else 0
    shape_matrix := decode_shape_matrix parameters num_dimensions
    degrees_freedom := parameters (num_parameters - 1) }

/-- Sample mean of column `j` of the asset-return observations, as computed
by `scipy.stats.describe` (asset_simulation.py line 425). -/
def sample_mean (asset_returns : List (List ℚ)) (j : ℕ) : ℚ :=
  (asset_returns.map (fun row => row.getD j 0)).sum / (asset_returns.length : ℚ)

/-- Sample variance (denominator `n - 1`, the `scipy.stats.describe`
default) of column `j` of the asset-return observations. -/
def sample_variance (asset_returns : List (List ℚ)) (j : ℕ) : ℚ :=
  (asset_returns.map (fun row => (row.getD j 0 - sample_mean asset_returns j) ^ 2)).sum /
    ((asset_returns.length : ℚ) - 1)

/-- Translation of `setup_students_t_mle_parameters` (asset_simulation.py
lines 406-446): a zero vector of length `d*(d+3)/2 + 1` whose first `d`
entries become the sample means, whose shape-matrix diagonal slots (walked
with a shrinking stride) become the sample variances, and whose last entry
becomes the number of dimensions (the degrees-of-freedom seed). -/
def setup_students_t_mle_parameters (num_dimensions : ℕ) (asset_returns : List (List ℚ)) :
    List ℚ :=
  let num_elements : ℕ := num_dimensions * (num_dimensions + 3) / 2 + 1
  let init0 : List ℚ := List.replicate num_elements 0
  let init1 : List ℚ := (List.range num_dimensions).foldl
    (fun l current_element => l.set current_element (sample_mean asset_returns current_element))
    init0
  let step_sizes : List ℕ := (List.range num_dimensions).map (fun k => num_dimensions - k)
  let init2 : List ℚ := (step_sizes.foldl
    (fun st step_size =>
      if st.1 < num_elements then
        (st.1 + step_size, st.2.set st.1 (sample_variance asset_returns (num_dimensions - step_size)))
      else st)
    ((num_dimensions, init1) : ℕ × List ℚ)).2
  init2.set (num_elements - 1) (num_dimensions : ℚ)

/-- Translation of the bound-list construction of
`setup_students_t_distribution_parameters` (asset_simulation.py lines
362-374): one `[lower, upper]` pair per entry of the initial parameter
vector (`none` models the Python `None`, i.e. unconstrained), built by
enumerating the initial values, then overwriting the last pair with
`[1, 100000]`. -/
def boundary_conditions (init_parameters : List ℚ) (num_dimensions : ℕ) :
    List (Option ℚ × Option ℚ) :=
  let bc := init_parameters.enum.map fun iv =>
    if iv.1 < num_dimensions then ((none, none) : Option ℚ × Option ℚ)
    else if iv.2 = 1 then (some 0, some 100000)
    else (none, none)
  bc.dropLast ++ [(some 1, some 100000)]

/-- Translation of `calculate_cvars` (file_input_output.py lines 42-65) and
of the identical inline computation in `print_simulation_results`
(kelly_criterion_portfolio.py lines 1374-1385).  For each portfolio and
sample period the code sums the run values strictly below the given
percentile and divides by their count with `np.divide`; a zero count makes
`np.divide` evaluate `0.0 / 0.0`, which is NaN — modelled here as `none`. -/
def calculate_cvars (number_of_runs : ℕ) (portfolio_values : ℕ → ℕ → ℕ → ℚ)
    (portfolio_values_percentile : ℕ → ℕ → ℚ) : ℕ → ℕ → Option ℚ :=
  fun p s =>
    let below_num : ℚ := ∑ r ∈ Finset.range number_of_runs,
      if portfolio_values p s r < portfolio_values_percentile p s then portfolio_values p s r else 0
    let below_den : ℚ := ∑ r ∈ Finset.range number_of_runs,
      if portfolio_values p s r < portfolio_values_percentile p s then 1 else 0
    if below_den = 0 then none else some (below_num / below_den)

/-- State of one simulation run of `simulate_portfolio_values`
(kelly_criterion_portfolio.py lines 1166-1194): current per-asset prices
and current per-portfolio total values. -/
structure SimState where
  price_assets : ℕ → ℚ
  current_portfolio_value : ℕ → ℚ

/-- Translation of one period of the inner loop of
`simulate_portfolio_values` (kelly_criterion_portfolio.py lines
1176-1190): rebalance into per-asset units, apply the drawn joint return
`return_assets` to the prices, revalue each portfolio and floor it at 0. -/
def simulation_period_step (test_portfolios : ℕ → ℕ → ℚ) (number_of_assets : ℕ)
    (return_assets : ℕ → ℚ) (st : SimState) : SimState :=
  let units_assets : ℕ → ℕ → ℚ := fun p a =>
    test_portfolios p a * st.current_portfolio_value p / st.price_assets a
  let new_price_assets : ℕ → ℚ := fun a => (return_assets a + 1) * st.price_assets a
  let value_assets : ℕ → ℕ → ℚ := fun p a => units_assets p a * new_price_assets a
  { price_assets := new_price_assets
    current_portfolio_value := fun p =>
      max 0 (∑ a ∈ Finset.range number_of_assets, value_assets p a) }

/-- Portfolio state after evolving `n` periods from the start of a run
(prices seeded at 100, every portfolio at `starting_portfolio_value`),
with the joint return of period `p` given by the oracle `returns p`. -/
def simulate_evolution (test_portfolios : ℕ → ℕ → ℚ) (number_of_assets : ℕ)
    (returns : ℕ → ℕ → ℚ) (starting_portfolio_value : ℚ) (n : ℕ) : SimState :=
  (List.range n).foldl
    (fun st current_period => simulation_period_step test_portfolios number_of_assets (returns current_period) st)
    { price_assets := fun _ => 100, current_portfolio_value := fun _ => starting_portfolio_value }

/-- Translation of one run of the simulation loop of
`simulate_portfolio_values` (kelly_criterion_portfolio.py lines
1166-1194), keeping the list of per-portfolio value vectors captured into
`portfolio_values`: at the end of each period `current_period`, after the
values have been updated, the value vector is recorded exactly when
`current_period % length_of_sample_period == 0`. -/
def simulate_portfolio_values_run (test_portfolios : ℕ → ℕ → ℚ) (number_of_assets : ℕ)
    (returns : ℕ → ℕ → ℚ) (number_of_periods length_of_sample_period : ℕ)
    (starting_portfolio_value : ℚ) : SimState × List (ℕ → ℚ) :=
  (List.range number_of_periods).foldl
    (fun st current_period =>
      let s := simulation_period_step test_portfolios number_of_assets (returns current_period) st.1
      if current_period % length_of_sample_period = 0 then
        (s, st.2 ++ [s.current_portfolio_value])
      else (s, st.2))
    (({ price_assets := fun _ => 100, current_portfolio_value := fun _ => starting_portfolio_value },
      []) : SimState × List (ℕ → ℚ))

/-- Structured counterpart of the error messages of `calculate_optimal_fs`
(kelly_criterion_portfolio.py lines 891-1014): `needMeanReturns` is
"Need to import mean returns.", `needCovarianceMatrix` is
"Need to import covariance matrix.", `qpFailed` is "Quadratic programming
function could not find answer.  Cannot calculate portfolio allocations.". -/
inductive FsError where
  | needMeanReturns
  | needCovarianceMatrix
  | qpFailed
deriving DecidableEq

/-- Model of the dictionary returned by `calculate_optimal_fs`: either the
optimal allocation vector together with the `long_only` flag, or an error. -/
inductive FsResult (d : ℕ) where
  | ok (optimal_fs : Fin d → ℚ) (long_only : Bool)
  | error (message : FsError)
deriving DecidableEq

/-- Dot product of a constraint row with an allocation vector. -/
def dotQ {d : ℕ} (v x : Fin d → ℚ) : ℚ := ∑ i, v i * x i

/-- Type of the `quadprog.solve_qp` oracle: it receives the quadratic form
`G`, the linear term `a`, the constraint rows (each paired with its bound,
the rows of `constraint_A` zipped with `constraint_b`) and `meq`, and
returns the solution vector or `none` when the library raises. -/
def QPSolver (d : ℕ) :=
  Matrix (Fin d) (Fin d) ℚ → (Fin d → ℚ) → List ((Fin d → ℚ) × ℚ) → ℕ → Option (Fin d → ℚ)

/-- A vector satisfies a quadprog constraint system when every row with
index below `meq` holds with equality and every later row holds as a
`≥` inequality: this is the documented constraint semantics of
`quadprog.solve_qp(G, a, C, b, meq)`, namely `C.T x >= b` with the first
`meq` rows as equalities. -/
def satisfiesConstraints {d : ℕ} (cons : List ((Fin d → ℚ) × ℚ)) (meq : ℕ) (x : Fin d → ℚ) : Prop :=
  ∀ k (hk : k < cons.length),
    if k < meq then dotQ (cons.get ⟨k, hk⟩).1 x = (cons.get ⟨k, hk⟩).2
    else (cons.get ⟨k, hk⟩).2 ≤ dotQ (cons.get ⟨k, hk⟩).1 x

/-- Contract of the external quadprog library: any vector it returns
satisfies the constraint system it was given. -/
def QPContract {d : ℕ} (qp : QPSolver d) : Prop :=
  ∀ G a cons meq x, qp G a cons meq = some x → satisfiesConstraints cons meq x

/-- Translation of `mean_returns_expanded` (kelly_criterion_portfolio.py
line 927): the mean-return vector with a trailing 1 appended. -/
def mean_returns_expanded {d : ℕ} (mean_returns : Fin d → ℚ) : Fin (d + 1) → ℚ :=
  fun j => if h : (j : ℕ) < d then mean_returns ⟨j, h⟩ else 1

/-- Translation of `covariance_matrix_expanded`
(kelly_criterion_portfolio.py lines 929-931): the covariance matrix
bordered with a row and a column of ones, with the new corner entry set
to 0. -/
def covariance_matrix_expanded {d : ℕ} (covariance_matrix : Matrix (Fin d) (Fin d) ℚ) :
    Matrix (Fin (d + 1)) (Fin (d + 1)) ℚ :=
  Matrix.of fun i j =>
    if hi : (i : ℕ) < d then
      if hj : (j : ℕ) < d then covariance_matrix ⟨i, hi⟩ ⟨j, hj⟩ else 1
    else if (j : ℕ) < d then 1 else 0

/-- Single in-place assignment `b[k] = v` on a vector modelled as a
function from indices to values. -/
def writeChannel (b : ℕ → ℚ) (k : ℕ) (v : ℚ) : ℕ → ℚ :=
  fun i => if i = k then v else b i

/-- Translation of the `constraint_A` construction of the long-only branch
of `calculate_optimal_fs` (kelly_criterion_portfolio.py lines 992-1005): a
zero matrix of `2 * number_of_rows + 1` rows, whose row 0 is filled with
ones, whose rows `1 .. number_of_rows` get `-1` at column `row - 1`, and
whose rows `number_of_rows + 1 .. 2 * number_of_rows` get `1` at column
`row - number_of_rows - 1`. -/
def constraintA_long_only (number_of_rows : ℕ) : ℕ → ℕ → ℚ :=
  let A0 : ℕ → ℕ → ℚ := fun _ _ => 0
  let A1 := (List.range number_of_rows).foldl
    (fun A current_column => writeEntry A 0 current_column 1) A0
  let A2 := (List.range' 1 number_of_rows).foldl
    (fun A current_row => writeEntry A current_row (current_row - 1) (-1)) A1
  (List.range' (number_of_rows + 1) number_of_rows).foldl
    (fun A current_row => writeEntry A current_row (current_row - number_of_rows - 1) 1) A2

/-- Translation of the `constraint_b` construction of the long-only branch
of `calculate_optimal_fs` (kelly_criterion_portfolio.py lines 993-1002):
zeros, except `b[0] = 1` and `b[row] = -1` for rows `1 .. number_of_rows`. -/
def constraintb_long_only (number_of_rows : ℕ) : ℕ → ℚ :=
  let b0 : ℕ → ℚ := fun _ => 0
  let b1 := writeChannel b0 0 1
  (List.range' 1 number_of_rows).foldl
    (fun b current_row => writeChannel b current_row (-1)) b1

/-- Constraint system handed to `quadprog.solve_qp` in the long-only branch
(`C = constraint_A.T`, `b = constraint_b`, `meq = 1`): the
`2 * d + 1` rows of `constraint_A` zipped with `constraint_b`. -/
def long_only_constraints (d : ℕ) : List ((Fin d → ℚ) × ℚ) :=
  (List.range (2 * d + 1)).map fun k =>
    (fun i : Fin d => constraintA_long_only d k (i : ℕ), constraintb_long_only d k)

/-- Translation of the `constraint_A` construction of the long-short QP
fallback of `calculate_optimal_fs` (kelly_criterion_portfolio.py lines
975-977): `np.ones((2, d))` with row 1 overwritten by `-1`. -/
def constraintA_long_short (number_of_rows : ℕ) : ℕ → ℕ → ℚ :=
  let A0 : ℕ → ℕ → ℚ := fun _ _ => 1
  (List.range number_of_rows).foldl
    (fun A current_column => writeEntry A 1 current_column (-1)) A0

/-- Translation of `constraint_b = np.array([1.0, -1.0])` of the long-short
QP fallback (kelly_criterion_portfolio.py line 980). -/
def constraintb_long_short : ℕ → ℚ :=
  fun k => if k = 0 then 1 else if k = 1 then -1 else 0

/-- Constraint system handed to `quadprog.solve_qp` in the long-short QP
fallback (`meq` left at its default 0): the 2 rows of `constraint_A`
zipped with `constraint_b`. -/
def long_short_constraints (d : ℕ) : List ((Fin d → ℚ) × ℚ) :=
  (List.range 2).map fun k =>
    (fun i : Fin d => constraintA_long_short d k (i : ℕ), constraintb_long_short k)

/-- Translation of the solver part of `calculate_optimal_fs`
(kelly_criterion_portfolio.py lines 914-1014), after the mean returns and
the covariance matrix have been loaded and the user has answered the
long-only question (`long_only`).  The external `quadprog.solve_qp` call
is the oracle `solve_qp`.  In the long-short case the code computes
`np.linalg.det(covariance_matrix_expanded)` and takes the closed-form
matrix-inversion branch exactly when that determinant is `> 0`; otherwise
it falls back to quadratic programming. -/
def calculate_optimal_fs {d : ℕ} (mean_returns : Fin d → ℚ)
    (covariance_matrix : Matrix (Fin d) (Fin d) ℚ) (long_only : Bool)
    (solve_qp : QPSolver d) : FsResult d :=
  if long_only = false then
    if 0 < (covariance_matrix_expanded covariance_matrix).det then
      FsResult.ok (fun i =>
        ((matInv (covariance_matrix_expanded covariance_matrix)).mulVec
          (mean_returns_expanded mean_returns)) i.castSucc) false
    else
      match solve_qp covariance_matrix mean_returns (long_short_constraints d) 0 with
      | some x => FsResult.ok x false
      | none => FsResult.error .qpFailed
  else
    match solve_qp covariance_matrix mean_returns (long_only_constraints d) 1 with
    | some x => FsResult.ok x true
    | none => FsResult.error .qpFailed

/-- Translation of `get_mean_returns` (kelly_criterion_portfolio.py lines
502-544) with the `mean_returns` database table modelled as its list of
`(asset, mean_return)` rows.  When the table is empty, `max(asset)` is
NULL and the function returns the length-1 sentinel array `np.zeros(1)`;
otherwise it returns a `(max_asset, 1)` column array filled by asset
number (assets are 1-indexed in the table). -/
def get_mean_returns (mean_returns_table : List (ℕ × ℚ)) : NDArray :=
  match (mean_returns_table.map Prod.fst).max? with
  | none => { shape := [1], entry := fun _ => 0 }
  | some maxAsset =>
    { shape := [maxAsset, 1]
      entry := mean_returns_table.foldl
        (fun f current_record => fun idx =>
          if idx = [current_record.1 - 1, 0] then current_record.2 else f idx)
        (fun _ => 0) }

/-- Translation of the mean-return guard at the top of
`calculate_optimal_fs` (kelly_criterion_portfolio.py lines 914-917): the
function bails out with "Need to import mean returns." exactly when the
array returned by `get_mean_returns` has `shape[0] == 1`. -/
def calculate_optimal_fs_mean_guard (mean_returns_table : List (ℕ × ℚ)) : Option FsError :=
  if (get_mean_returns mean_returns_table).shape.getD 0 0 = 1 then some .needMeanReturns
  else none

/-- View of a square rational `Fin`-indexed matrix as a numpy-style 2-D
array of side `n`. -/
def finMatrixNDArray {n : ℕ} (M : Matrix (Fin n) (Fin n) ℚ) : NDArray :=
  { shape := [n, n]
    entry := fun idx =>
      if h : idx.getD 0 0 < n ∧ idx.getD 1 0 < n then M ⟨idx.getD 0 0, h.1⟩ ⟨idx.getD 1 0, h.2⟩
      else 0 }

/-- Executable feasibility check mirroring `satisfiesConstraints`, used to
build contract-satisfying quadprog oracles for concrete evaluations. -/
def feasibleB {d : ℕ} (cons : List ((Fin d → ℚ) × ℚ)) (meq : ℕ) (x : Fin d → ℚ) : Bool :=
  cons.enum.all fun kc =>
    if kc.1 < meq then dotQ kc.2.1 x == kc.2.2 else decide (kc.2.2 ≤ dotQ kc.2.1 x)

/-- A quadprog oracle that answers a fixed vector whenever that vector is
feasible for the constraint system it receives, and raises otherwise. -/
def feasibilityCheckingSolver {d : ℕ} (x0 : Fin d → ℚ) : QPSolver d :=
  fun _ _ cons meq => if feasibleB cons meq x0 then some x0 else none

/-- A quadprog oracle that always raises. -/
def refusingSolver {d : ℕ} : QPSolver d := fun _ _ _ _ => none

/-! ### Helper lemmas -/

/-- Unfolding of the elementwise Hermitian-equality check into a bounded
quantifier over the in-shape entries. -/
theorem hermitianEqualB_iff (A : NDArray) (rows cols : ℕ) :
    hermitianEqualB A rows cols = true ↔
      ∀ i < rows, ∀ j < cols, A.entry [i, j] = A.entry [j, i] := by
  simp [hermitianEqualB, List.all_eq_true, List.mem_range, beq_iff_eq]

/-- Characterization of a left fold of single-entry writes at cells
`(r, g r)` whose written values do not depend on the matrix being built:
the final value at a cell is the written value when the cell was targeted
and the initial value otherwise. -/
theorem foldl_fill_apply (g : ℕ → ℕ) (l : List ℕ) (p : ℕ → ℚ) (M0 : ℕ → ℕ → ℚ) (i j : ℕ) :
    (l.foldl (fun M r => writeEntry M r (g r) (p r)) M0) i j =
      if i ∈ l ∧ j = g i then p i else M0 i j := by
  induction l generalizing M0 with
  | nil => simp
  | cons a l ih =>
    rw [List.foldl_cons, ih]
    simp only [writeEntry, List.mem_cons]
    by_cases hil : i ∈ l ∧ j = g i
    · simp [hil, hil.1, hil.2]
    · by_cases hia : i = a ∧ j = g a
      · rcases hia with ⟨hia1, hia2⟩
        subst hia1
        simp [hil, hia2]
      · simp only [if_neg hil, if_neg hia]
        rw [if_neg]
        intro hc
        rcases hc with ⟨hc1 | hc1, hc2⟩
        · exact hia ⟨hc1, hc1 ▸ hc2⟩
        · exact hil ⟨hc1, hc2⟩

/-- Characterization of a left fold of single-entry writes along a fixed
row: the final value at a cell is the written value when the cell was
targeted and the initial value otherwise. -/
theorem foldl_fill_row_apply (row : ℕ) (l : List ℕ) (p : ℕ → ℚ) (M0 : ℕ → ℕ → ℚ) (i j : ℕ) :
    (l.foldl (fun M c => writeEntry M row c (p c)) M0) i j =
      if i = row ∧ j ∈ l then p j else M0 i j := by
  induction l generalizing M0 with
  | nil => simp
  | cons a l ih =>
    rw [List.foldl_cons, ih]
    simp only [writeEntry, List.mem_cons]
    by_cases hil : i = row ∧ j ∈ l
    · simp [hil, hil.1, hil.2]
    · by_cases hia : i = row ∧ j = a
      · rcases hia with ⟨hia1, hia2⟩
        subst hia2
        simp [hil, hia1]
      · simp only [if_neg hil, if_neg hia]
        rw [if_neg]
        intro hc
        rcases hc with ⟨hc1, hc2 | hc2⟩
        · exact hia ⟨hc1, hc2⟩
        · exact hil ⟨hc1, hc2⟩

/-- Characterization of the mirroring loop of `decode_shape_matrix`: when
every write target is a row strictly above the column being filled, the
loop copies the initial values of row `col` into column `col` and leaves
everything else unchanged. -/
theorem foldl_mirror_apply (col : ℕ) (l : List ℕ) (hl : ∀ r ∈ l, r < col)
    (M0 : ℕ → ℕ → ℚ) (i j : ℕ) :
    (l.foldl (fun M r1 => writeEntry M r1 col (M col r1)) M0) i j =
      if i ∈ l ∧ j = col then M0 col i else M0 i j := by
  induction l generalizing M0 with
  | nil => simp
  | cons a l ih =>
    have ha : a < col := hl a (List.mem_cons_self a l)
    rw [List.foldl_cons, ih (fun r hr => hl r (List.mem_cons_of_mem a hr))]
    by_cases hil : i ∈ l ∧ j = col
    · rw [if_pos hil,
        if_pos (show i ∈ a :: l ∧ j = col from ⟨List.mem_cons_of_mem a hil.1, hil.2⟩)]
      show writeEntry M0 a col (M0 col a) col i = M0 col i
      unfold writeEntry
      rw [if_neg (fun hc => absurd hc.1.symm (Nat.ne_of_lt ha))]
    · by_cases hia : i = a ∧ j = col
      · rw [if_neg hil,
          if_pos (show i ∈ a :: l ∧ j = col from ⟨hia.1 ▸ List.mem_cons_self a l, hia.2⟩)]
        show writeEntry M0 a col (M0 col a) i j = M0 col i
        unfold writeEntry
        rw [if_pos hia, hia.1]
      · rw [if_neg hil, if_neg (show ¬ (i ∈ a :: l ∧ j = col) from ?_)]
        · show writeEntry M0 a col (M0 col a) i j = M0 i j
          unfold writeEntry
          rw [if_neg hia]
        · rintro ⟨h1, h2⟩
          rcases List.mem_cons.mp h1 with h1 | h1
          · exact hia ⟨h1, h2⟩
          · exact hil ⟨h1, h2⟩

/-- Characterization of a left fold of single-cell writes on a vector. -/
theorem foldl_writeChannel_apply (l : List ℕ) (p : ℕ → ℚ) (b0 : ℕ → ℚ) (i : ℕ) :
    (l.foldl (fun b r => writeChannel b r (p r)) b0) i = if i ∈ l then p i else b0 i := by
  induction l generalizing b0 with
  | nil => simp
  | cons a l ih =>
    rw [List.foldl_cons, ih]
    simp only [writeChannel, List.mem_cons]
    by_cases hil : i ∈ l
    · simp [hil]
    · by_cases hia : i = a
      · simp [hia, hil]
      · simp [hia, hil]

/-- Closed form of the long-only constraint matrix: ones in row 0, `-1`
at `(r, r - 1)` for `1 ≤ r ≤ d`, `1` at `(r, r - d - 1)` for
`d + 1 ≤ r ≤ 2 * d`, zero elsewhere. -/
theorem constraintA_long_only_apply (d i j : ℕ) :
    constraintA_long_only d i j =
      if i = 0 ∧ j < d then 1
      else if 1 ≤ i ∧ i ≤ d ∧ j = i - 1 then -1
      else if d + 1 ≤ i ∧ i ≤ 2 * d ∧ j = i - d - 1 then 1
      else 0 := by
  simp only [constraintA_long_only, foldl_fill_apply, foldl_fill_row_apply,
    List.mem_range'_1, List.mem_range]
  split_ifs <;> first | rfl | omega | tauto

/-- Closed form of the long-only constraint bounds: `1` at index 0, `-1`
at indices `1 ≤ i ≤ d`, zero elsewhere. -/
theorem constraintb_long_only_apply (d i : ℕ) :
    constraintb_long_only d i = if i = 0 then 1 else if 1 ≤ i ∧ i ≤ d then -1 else 0 := by
  simp only [constraintb_long_only, foldl_writeChannel_apply, writeChannel, List.mem_range'_1]
  split_ifs <;> first | rfl | omega | tauto

/-- Closed form of the long-short constraint matrix: `-1` on row 1 inside
the first `d` columns, `1` everywhere else. -/
theorem constraintA_long_short_apply (d i j : ℕ) :
    constraintA_long_short d i j = if i = 1 ∧ j < d then -1 else 1 := by
  simp only [constraintA_long_short, foldl_fill_row_apply, List.mem_range]

/-- Row `k` of the long-only constraint system, for `k` in range. -/
theorem long_only_constraints_getD (d k : ℕ) (dflt : (Fin d → ℚ) × ℚ) (hk : k < 2 * d + 1) :
    (long_only_constraints d).getD k dflt =
      (fun i : Fin d => constraintA_long_only d k (i : ℕ), constraintb_long_only d k) := by
  unfold long_only_constraints
  rw [List.getD_eq_getElem?_getD, List.getElem?_map, List.getElem?_range hk]
  rfl

/-! ### C8: behaviour of the positive-semi-definiteness check -/

/-- C8.  For every real matrix, `is_matrix_pos_semidef` fails with the
2-dimensions message if the array is not 2-D, fails with the squareness
message if it is 2-D but not square, fails with the Hermitian message if
it is square but not equal to its (conjugate) transpose, fails with a
message carrying the first offending eigenvalue if some eigenvalue in the
list computed by `np.linalg.eigvals` is negative, and passes otherwise —
in particular a symmetric matrix all of whose eigenvalues are `≥ 0`
(an eigenvalue exactly 0 included) passes. -/
theorem is_matrix_pos_semidef_spec (A : NDArray) (eigvals : List ℚ) :
    (A.shape.length ≠ 2 →
      is_matrix_pos_semidef A eigvals = ⟨false, some .needTwoDimensions⟩) ∧
    (∀ a b : ℕ, A.shape = [a, b] → a ≠ b →
      is_matrix_pos_semidef A eigvals = ⟨false, some .needSquare⟩) ∧
    (∀ n : ℕ, A.shape = [n, n] →
      ¬ (∀ i < n, ∀ j < n, A.entry [i, j] = A.entry [j, i]) →
      is_matrix_pos_semidef A eigvals = ⟨false, some .notHermitian⟩) ∧
    (∀ n : ℕ, A.shape = [n, n] →
      (∀ i < n, ∀ j < n, A.entry [i, j] = A.entry [j, i]) →
      (∃ v ∈ eigvals, v < 0) →
      ∃ w ∈ eigvals, w < 0 ∧
        is_matrix_pos_semidef A eigvals = ⟨false, some (.negativeEigenvalue w)⟩) ∧
    (∀ n : ℕ, A.shape = [n, n] →
      (∀ i < n, ∀ j < n, A.entry [i, j] = A.entry [j, i]) →
      (∀ v ∈ eigvals, 0 ≤ v) →
      is_matrix_pos_semidef A eigvals = ⟨true, none⟩) := by
  refine ⟨?_, ?_, ?_, ?_, ?_⟩
  · intro h
    simp [is_matrix_pos_semidef, h]
  · intro a b hs hab
    simp [is_matrix_pos_semidef, hs, hab]
  · intro n hs hnh
    have hb : hermitianEqualB A n n = false := by
      cases h : hermitianEqualB A n n
      · rfl
      · exact absurd ((hermitianEqualB_iff A n n).mp h) hnh
    simp [is_matrix_pos_semidef, hs, hb]
  · intro n hs hherm hex
    have hb : hermitianEqualB A n n = true := (hermitianEqualB_iff A n n).mpr hherm
    have hfind : ∃ w, eigvals.find? (fun v => decide (v < 0)) = some w := by
      rcases hex with ⟨v, hv, hvneg⟩
      rcases Option.eq_none_or_eq_some (eigvals.find? (fun v => decide (v < 0))) with h | h
      · rw [List.find?_eq_none] at h
        exact absurd (by simpa using hvneg) (h v hv)
      · exact h
    rcases hfind with ⟨w, hw⟩
    refine ⟨w, List.mem_of_find?_eq_some hw, by simpa using List.find?_some hw, ?_⟩
    simp [is_matrix_pos_semidef, hs, hb, hw]
  · intro n hs hherm hnonneg
    have hb : hermitianEqualB A n n = true := (hermitianEqualB_iff A n n).mpr hherm
    have hfind : eigvals.find? (fun v => decide (v < 0)) = none := by
      rw [List.find?_eq_none]
      intro v hv
      simpa using not_lt.mpr (hnonneg v hv)
    simp [is_matrix_pos_semidef, hs, hb, hfind]

/-- Witness for C8: the 2×2 identity (eigenvalues `[1, 1]`) passes the
check, the matrix `diag(1, 0)` with the boundary eigenvalue list `[1, 0]`
passes, and a 1-D array fails with the 2-dimensions message. -/
theorem is_matrix_pos_semidef_spec_witness :
    is_matrix_pos_semidef (matrixNDArray 2 (fun i j => if i = j then 1 else 0)) [1, 1]
        = ⟨true, none⟩ ∧
    is_matrix_pos_semidef
        (matrixNDArray 2 (fun i j => if i = 0 ∧ j = 0 then 1 else 0)) [1, 0]
        = ⟨true, none⟩ ∧
    is_matrix_pos_semidef ⟨[3], fun _ => 0⟩ [1] = ⟨false, some .needTwoDimensions⟩ := by
  refine ⟨?_, ?_, ?_⟩
  · exact (is_matrix_pos_semidef_spec
      (matrixNDArray 2 (fun i j => if i = j then 1 else 0)) [1, 1]).2.2.2.2 2
      rfl (by decide) (by decide)
  · exact (is_matrix_pos_semidef_spec
      (matrixNDArray 2 (fun i j => if i = 0 ∧ j = 0 then 1 else 0)) [1, 0]).2.2.2.2 2
      rfl (by decide) (by decide)
  · exact (is_matrix_pos_semidef_spec ⟨[3], fun _ => 0⟩ [1]).1 (by decide)

/-! ### C4: the CVaR division by zero is not guarded -/

/-- C4 counterexample.  The claim says the zero-denominator case of the
CVaR computation is guarded and reported as an error and never silently
produces NaN.  The code has no guard: with 2 runs whose values at a sample
period both equal the 1st-percentile threshold, no value falls strictly
below the threshold, `np.divide` evaluates `0.0 / 0.0`, and the NaN
(modelled as `none`) lands silently in the output statistics. -/
theorem calculate_cvars_nan_counterexample :
    calculate_cvars 2 (fun _ _ _ => 5) (fun _ _ => 5) 0 0 = none := by
  norm_num [calculate_cvars, Finset.sum_range_succ]

/-- C4 as amended.  The zero-denominator case is not guarded: the CVaR
entry for a portfolio and sample period is NaN (`none`) exactly when no
run value at that period falls strictly below the percentile threshold,
and otherwise it is the sum of the below-threshold values divided by
their count. -/
theorem calculate_cvars_spec (number_of_runs : ℕ) (portfolio_values : ℕ → ℕ → ℕ → ℚ)
    (pct : ℕ → ℕ → ℚ) (p s : ℕ) :
    (calculate_cvars number_of_runs portfolio_values pct p s = none ↔
      ∀ r < number_of_runs, ¬ portfolio_values p s r < pct p s) ∧
    (¬ (∀ r < number_of_runs, ¬ portfolio_values p s r < pct p s) →
      calculate_cvars number_of_runs portfolio_values pct p s =
        some ((∑ r ∈ Finset.range number_of_runs,
            if portfolio_values p s r < pct p s then portfolio_values p s r else 0) /
          (∑ r ∈ Finset.range number_of_runs,
            if portfolio_values p s r < pct p s then 1 else 0))) := by
  have hden : (∑ r ∈ Finset.range number_of_runs,
      if portfolio_values p s r < pct p s then (1 : ℚ) else 0) = 0 ↔
      ∀ r < number_of_runs, ¬ portfolio_values p s r < pct p s := by
    rw [Finset.sum_eq_zero_iff_of_nonneg]
    · constructor
      · intro h r hr
        by_contra hc
        have := h r (Finset.mem_range.mpr hr)
        simp [hc] at this
      · intro h r hr
        simp [h r (Finset.mem_range.mp hr)]
    · intro r _
      split <;> norm_num
  constructor
  · constructor
    · intro h
      rw [← hden]
      by_contra hc
      simp only [calculate_cvars, if_neg hc] at h
      exact Option.some_ne_none _ h
    · intro h
      simp only [calculate_cvars, if_pos (hden.mpr h)]
  · intro h
    have : ¬ (∑ r ∈ Finset.range number_of_runs,
        if portfolio_values p s r < pct p s then (1 : ℚ) else 0) = 0 := fun hc => h (hden.mp hc)
    simp only [calculate_cvars, if_neg this]

/-! ### C10: a single-asset dataset always fails the mean-returns guard -/

/-- C10.  For every non-empty stored mean-returns table whose largest asset
number is 1 (a dataset with exactly one asset), `get_mean_returns` builds
the genuine 1×1 column array, yet the `shape[0] == 1` test at the top of
`calculate_optimal_fs` cannot tell it apart from the length-1 sentinel
returned for an empty table, so the function fails with the
"Need to import mean returns." error and a single-asset portfolio can
never be solved. -/
theorem single_asset_mean_guard (mean_returns_table : List (ℕ × ℚ))
    (hassets : (mean_returns_table.map Prod.fst).max? = some 1) :
    (get_mean_returns mean_returns_table).shape = [1, 1] ∧
    calculate_optimal_fs_mean_guard mean_returns_table = some .needMeanReturns := by
  have hshape : (get_mean_returns mean_returns_table).shape = [1, 1] := by
    unfold get_mean_returns
    rw [hassets]
  refine ⟨hshape, ?_⟩
  unfold calculate_optimal_fs_mean_guard
  rw [hshape]
  simp

/-- Witness for C10: the one-asset table holding mean return 1/20 for
asset 1 carries its data, yet the guard rejects it. -/
theorem single_asset_mean_guard_witness :
    ((([(1, 1/20)] : List (ℕ × ℚ)).map Prod.fst).max? = some 1) ∧
    (get_mean_returns [(1, 1/20)]).shape = [1, 1] ∧
    (get_mean_returns [(1, 1/20)]).entry [0, 0] = 1/20 ∧
    calculate_optimal_fs_mean_guard [(1, 1/20)] = some .needMeanReturns := by
  have h := single_asset_mean_guard [(1, 1/20)] (by rfl)
  exact ⟨by rfl, h.1, by rfl, h.2⟩

/-! ### C5: the long-only constraint system -/

/-- C5 counterexample.  The claim says the long-only constraint system is
exactly one equality row followed by exactly `d` nonnegativity rows.  For
`d = 2` assets the system actually has `5 = 2 * d + 1` rows, not
`d + 1 = 3`, and its row 1 is the upper-bound constraint
`-x_0 ≥ -1` (that is, `x_0 ≤ 1`), not a nonnegativity row. -/
theorem long_only_constraints_counterexample :
    (long_only_constraints 2).length = 5 ∧ (2 + 1 : ℕ) ≠ 5 ∧
    (long_only_constraints 2).getD 1 (fun _ => 0, 0) =
      (fun j : Fin 2 => if (j : ℕ) = 0 then -1 else 0, -1) := by
  refine ⟨by simp [long_only_constraints], by decide, ?_⟩
  rw [long_only_constraints_getD 2 1 _ (by omega)]
  simp only [Prod.mk.injEq]
  constructor
  · funext j
    rw [constraintA_long_only_apply]
    have := j.isLt
    split_ifs <;> first | rfl | omega | tauto
  · rw [constraintb_long_only_apply]
    norm_num

/-- C5 as amended.  The long-only constraint system handed to
`quadprog.solve_qp` (with `meq = 1`) has `2 * d + 1` rows: row 0 is the
equality `sum of allocations = 1`; rows `1 .. d` are the upper-bound
inequalities `-x_(r-1) ≥ -1` (one per asset); rows `d + 1 .. 2 * d` are
the nonnegativity inequalities `x_(r-d-1) ≥ 0` (one per asset). -/
theorem long_only_constraints_spec (d : ℕ) :
    (long_only_constraints d).length = 2 * d + 1 ∧
    (long_only_constraints d).getD 0 (fun _ => 0, 0) = (fun _ : Fin d => 1, 1) ∧
    (∀ r : ℕ, 1 ≤ r → r ≤ d →
      (long_only_constraints d).getD r (fun _ => 0, 0) =
        (fun j : Fin d => if (j : ℕ) = r - 1 then -1 else 0, -1)) ∧
    (∀ r : ℕ, d + 1 ≤ r → r ≤ 2 * d →
      (long_only_constraints d).getD r (fun _ => 0, 0) =
        (fun j : Fin d => if (j : ℕ) = r - d - 1 then 1 else 0, 0)) := by
  refine ⟨by simp [long_only_constraints], ?_, ?_, ?_⟩
  · rw [long_only_constraints_getD d 0 _ (by omega)]
    simp only [Prod.mk.injEq]
    refine ⟨funext fun j => ?_, ?_⟩
    · rw [constraintA_long_only_apply]
      have := j.isLt
      split_ifs <;> first | rfl | omega | tauto
    · rw [constraintb_long_only_apply]
      norm_num
  · intro r h1 h2
    rw [long_only_constraints_getD d r _ (by omega)]
    simp only [Prod.mk.injEq]
    refine ⟨funext fun j => ?_, ?_⟩
    · rw [constraintA_long_only_apply]
      have := j.isLt
      split_ifs <;> first | rfl | omega | tauto
    · rw [constraintb_long_only_apply]
      split_ifs <;> first | rfl | omega | tauto
  · intro r h1 h2
    rw [long_only_constraints_getD d r _ (by omega)]
    simp only [Prod.mk.injEq]
    refine ⟨funext fun j => ?_, ?_⟩
    · rw [constraintA_long_only_apply]
      have := j.isLt
      split_ifs <;> first | rfl | omega | tauto
    · rw [constraintb_long_only_apply]
      split_ifs <;> first | rfl | omega | tauto

/-- Witness for C5 as amended: at `d = 2`, row 1 is the upper-bound row
for asset 0 and row 3 is the nonnegativity row for asset 0. -/
theorem long_only_constraints_spec_witness :
    (long_only_constraints 2).getD 1 (fun _ => 0, 0) =
      (fun j : Fin 2 => if (j : ℕ) = 0 then -1 else 0, -1) ∧
    (long_only_constraints 2).getD 3 (fun _ => 0, 0) =
      (fun j : Fin 2 => if (j : ℕ) = 0 then 1 else 0, 0) := by
  have h := long_only_constraints_spec 2
  refine ⟨?_, ?_⟩
  · have := h.2.2.1 1 (by omega) (by omega)
    simpa using this
  · have := h.2.2.2 3 (by omega) (by omega)
    simpa using this

/-! ### C1: the long-short closed-form branch tests det > 0, not det ≠ 0 -/

/-- C1.  The claim says the closed form is used whenever the augmented
determinant is nonzero and the QP fallback only when it is (numerically)
zero.  For a single asset with mean 1/20 and variance 1/25 the augmented
matrix is `[[1/25, 1], [1, 0]]` with determinant `-1`, which is nonzero
(the matrix is invertible), yet the code tests `det > 0` and therefore
takes the QP fallback; with a solver that finds no answer the whole call
fails instead of returning the closed-form allocation.  (For every
positive-definite covariance the bordered determinant is negative, so the
closed-form branch is unreachable in the intended use.) -/
theorem long_short_det_branch_bug :
    (covariance_matrix_expanded (d := 1) (Matrix.of fun _ _ => 1/25)).det = -1 ∧
    calculate_optimal_fs (d := 1) (fun _ => 1/20) (Matrix.of fun _ _ => 1/25) false
      refusingSolver = FsResult.error .qpFailed := by
  have hdet : (covariance_matrix_expanded (d := 1) (Matrix.of fun _ _ => 1/25)).det = -1 := by
    rw [Matrix.det_fin_two]
    norm_num [covariance_matrix_expanded]
  refine ⟨hdet, ?_⟩
  unfold calculate_optimal_fs
  rw [hdet]
  norm_num [refusingSolver]

/-! ### C3: samples are recorded one period into each sample sub-period -/

/-- C3.  The claim says the value of each portfolio is recorded after each
block of `number_of_periods / number_of_sample_periods` consecutive
periods completes, so that the k-th sample is the value after
`k * length_of_sample_period` periods.  The code records when
`current_period % length_of_sample_period == 0`, i.e. after
`k * length_of_sample_period + 1` periods of evolution.  With one
portfolio fully allocated to one asset, a constant +100% return each
period, 4 periods, 2 sample periods (sample length 2) and starting value
1, the recorded samples are `[2, 8]` — the values after 1 and 3 periods —
whereas the values after 2 and 4 periods are 4 and 16. -/
theorem sample_period_off_by_one :
    ((simulate_portfolio_values_run (fun _ _ => 1) 1 (fun _ _ => 1) 4 2 1).2.map
        (fun f => f 0)) = [2, 8] ∧
    (simulate_evolution (fun _ _ => 1) 1 (fun _ _ => 1) 1 2).current_portfolio_value 0 = 4 ∧
    (simulate_evolution (fun _ _ => 1) 1 (fun _ _ => 1) 1 4).current_portfolio_value 0 = 16 ∧
    ([2, 8] : List ℚ) ≠ [4, 16] := by
  refine ⟨?_, ?_, ?_, by norm_num⟩
  · norm_num [simulate_portfolio_values_run, simulation_period_step, List.range_succ,
      Finset.sum_range_succ]
  · norm_num [simulate_evolution, simulation_period_step, List.range_succ,
      Finset.sum_range_succ]
  · norm_num [simulate_evolution, simulation_period_step, List.range_succ,
      Finset.sum_range_succ]

/-! ### C2: the MLE bound list constrains only entries seeded at exactly 1 -/

/-- C2 counterexample.  The claim says every shape-matrix diagonal entry is
bounded to `[0, 100000]`.  For one asset with returns `[0, 2]` the seeded
parameter vector is `[1, 2, 1]` (mean 1, sample variance 2,
degrees-of-freedom seed 1), and the bound attached to the diagonal entry
(index 1, seeded to the variance 2) is `(none, none)` — unconstrained —
because the code only bounds entries whose seeded value equals exactly 1. -/
theorem boundary_conditions_counterexample :
    setup_students_t_mle_parameters 1 [[0], [2]] = [1, 2, 1] ∧
    boundary_conditions (setup_students_t_mle_parameters 1 [[0], [2]]) 1 =
      [(none, none), (none, none), (some 1, some 100000)] ∧
    (boundary_conditions (setup_students_t_mle_parameters 1 [[0], [2]]) 1).getD 1
        (none, none) ≠ (some 0, some 100000) := by
  have hsetup : setup_students_t_mle_parameters 1 [[0], [2]] = [1, 2, 1] := by
    norm_num [setup_students_t_mle_parameters, sample_mean, sample_variance, List.range_succ]
    rfl
  have hlist : boundary_conditions [1, 2, 1] 1 =
      [(none, none), (none, none), (some 1, some 100000)] := by
    norm_num [boundary_conditions, List.enum]
  refine ⟨hsetup, by rw [hsetup]; exact hlist, ?_⟩
  rw [hsetup, hlist]
  simp

/-- C2 as amended.  In the bound list passed to the bounded Nelder-Mead
minimization, the first `d` (location) entries are unconstrained; every
later entry except the last — the shape-matrix slots, diagonal and
off-diagonal alike — is bounded to `[0, 100000]` exactly when its seeded
initial value equals 1 and is unconstrained otherwise; and the final
degrees-of-freedom entry is bounded to `[1, 100000]`. -/
theorem boundary_conditions_spec (init_parameters : List ℚ) (num_dimensions : ℕ)
    (h : init_parameters ≠ []) :
    (boundary_conditions init_parameters num_dimensions).length = init_parameters.length ∧
    (∀ i, i + 1 < init_parameters.length →
      (boundary_conditions init_parameters num_dimensions).getD i (none, none) =
        if i < num_dimensions then (none, none)
        else if init_parameters.getD i 0 = 1 then (some 0, some 100000)
        else (none, none)) ∧
    (boundary_conditions init_parameters num_dimensions).getD
        (init_parameters.length - 1) (none, none) = (some 1, some 100000) := by
  have hpos : 0 < init_parameters.length := List.length_pos.mpr h
  have hlen : (init_parameters.enum.map fun iv =>
      if iv.1 < num_dimensions then ((none, none) : Option ℚ × Option ℚ)
      else if iv.2 = 1 then (some 0, some 100000)
      else (none, none)).length = init_parameters.length := by
    simp
  refine ⟨?_, ?_, ?_⟩
  · simp only [boundary_conditions, List.length_append, List.length_dropLast, hlen,
      List.length_singleton]
    omega
  · intro i hi
    simp only [boundary_conditions, List.getD_eq_getElem?_getD]
    rw [List.getElem?_append_left (by rw [List.length_dropLast, hlen]; omega)]
    rw [List.dropLast_eq_take, List.getElem?_take_of_lt (by rw [hlen]; omega)]
    rw [List.getElem?_map, List.getElem?_enum]
    rw [List.getElem?_eq_getElem (by omega)]
    simp only [Option.map_some', Option.getD_some]
    try rw [List.getD_eq_getElem?_getD, List.getElem?_eq_getElem (by omega)]
    try rfl
  · simp only [boundary_conditions, List.getD_eq_getElem?_getD]
    rw [List.getElem?_append_right (by rw [List.length_dropLast, hlen]; try omega)]
    rw [List.length_dropLast, hlen]
    have h0 : init_parameters.length - 1 - (init_parameters.length - 1) = 0 := by omega
    rw [h0]
    rfl

/-- Witness for C2 as amended: for the seeded vector `[5, 2, 1, 7]` with
one location entry, slot 1 (seeded 2) is unconstrained, slot 2 (seeded
exactly 1) is bounded to `[0, 100000]`, and the final slot is bounded to
`[1, 100000]`. -/
theorem boundary_conditions_spec_witness :
    (boundary_conditions [5, 2, 1, 7] 1).getD 1 (none, none) = (none, none) ∧
    (boundary_conditions [5, 2, 1, 7] 1).getD 2 (none, none) = (some 0, some 100000) ∧
    (boundary_conditions [5, 2, 1, 7] 1).getD 3 (none, none) = (some 1, some 100000) := by
  have h := boundary_conditions_spec [5, 2, 1, 7] 1 (by simp)
  refine ⟨?_, ?_, ?_⟩
  · have := h.2.1 1 (by norm_num)
    rw [this]
    norm_num
  · have := h.2.1 2 (by norm_num)
    rw [this]
    norm_num
  · simpa using h.2.2

/-! ### C9: the decoded shape matrix is exactly symmetric -/

/-- Closed form of one column step of the shape-matrix reconstruction:
rows `current_column .. d - 1` of column `current_column` are filled from
the flat parameter vector, rows above are mirrored from row
`current_column` of the incoming matrix, and all other entries are kept. -/
theorem decode_column_step_apply (parameters : ℕ → ℚ) (d : ℕ) (st : ℤ × (ℕ → ℕ → ℚ))
    (c : ℕ) (hc : c < d) (i j : ℕ) :
    (decode_column_step parameters d st c).2 i j =
      if c ≤ i ∧ i < d ∧ j = c then
        parameters ((i : ℤ) + (c * d : ℕ) + (st.1 - (c : ℤ))).toNat
      else if i < c ∧ j = c then st.2 c i
      else st.2 i j := by
  simp only [decode_column_step, foldl_fill_apply,
    foldl_mirror_apply c (List.range c) (fun r hr => List.mem_range.mp hr),
    List.mem_range'_1, List.mem_range]
  have hd : c + (d - c) = d := by omega
  rw [hd]
  split_ifs <;> first | rfl | omega | tauto

/-- Loop invariant of the shape-matrix reconstruction: after the first `n`
columns have been processed, the filled top-left region is symmetric and
every entry in an unprocessed column or an out-of-range row is still 0. -/
theorem decode_shape_matrix_fold_inv (parameters : ℕ → ℚ) (d n : ℕ) (hn : n ≤ d) :
    (∀ i j, i < n → j < n →
      ((List.range n).foldl (decode_column_step parameters d)
        (((d : ℤ), fun _ _ => (0 : ℚ)) : ℤ × (ℕ → ℕ → ℚ))).2 i j =
      ((List.range n).foldl (decode_column_step parameters d)
        (((d : ℤ), fun _ _ => (0 : ℚ)) : ℤ × (ℕ → ℕ → ℚ))).2 j i) ∧
    (∀ i j, n ≤ j ∨ d ≤ i →
      ((List.range n).foldl (decode_column_step parameters d)
        (((d : ℤ), fun _ _ => (0 : ℚ)) : ℤ × (ℕ → ℕ → ℚ))).2 i j = 0) := by
  induction n with
  | zero => exact ⟨fun i j hi hj => by omega, fun i j hij => rfl⟩
  | succ n ih =>
    have hn' : n ≤ d := by omega
    have hcd : n < d := by omega
    obtain ⟨ihsym, ihzero⟩ := ih hn'
    rw [List.range_succ, List.foldl_append, List.foldl_cons, List.foldl_nil]
    set st := (List.range n).foldl (decode_column_step parameters d)
      (((d : ℤ), fun _ _ => (0 : ℚ)) : ℤ × (ℕ → ℕ → ℚ)) with hst
    constructor
    · intro i j hi hj
      rw [decode_column_step_apply parameters d st n hcd,
        decode_column_step_apply parameters d st n hcd]
      rcases Nat.lt_or_ge i n with hilt | hige
      · rcases Nat.lt_or_ge j n with hjlt | hjge
        · rw [if_neg (by omega), if_neg (by omega), if_neg (by omega), if_neg (by omega)]
          exact ihsym i j hilt hjlt
        · have hjn : n = j := by omega
          subst hjn
          rw [if_neg (by omega), if_pos ⟨hilt, rfl⟩, if_neg (by omega), if_neg (by omega)]
      · have hin : n = i := by omega
        subst hin
        rcases Nat.lt_or_ge j n with hjlt | hjge
        · rw [if_neg (by omega), if_neg (by omega), if_neg (by omega), if_pos ⟨hjlt, rfl⟩]
        · have hjn : n = j := by omega
          subst hjn
          rfl
    · intro i j hij
      rw [decode_column_step_apply parameters d st n hcd]
      rcases hij with hj | hi
      · rw [if_neg (by omega), if_neg (by omega)]
        exact ihzero i j (Or.inl (by omega))
      · rw [if_neg (by omega), if_neg (by omega)]
        exact ihzero i j (Or.inr hi)

/-- C9.  For every flat parameter vector, the shape matrix returned by
`decode_lh_parameters_students_t` is exactly symmetric (the upper triangle
is mirrored from the already-written lower triangle, column by column);
consequently the validation prefix of `trial_pos_semidef_matrix` — the
2-dimensions, squareness and symmetry checks — never fails on it, so the
branch of `log_likelihood_multivariate_students_t` that prints the repair
error and returns 0.0 is unreachable. -/
theorem decode_lh_shape_matrix_symmetric (parameters : ℕ → ℚ)
    (num_dimensions num_parameters : ℕ) :
    (∀ i j, (decode_lh_parameters_students_t parameters num_dimensions
        num_parameters).shape_matrix i j =
      (decode_lh_parameters_students_t parameters num_dimensions
        num_parameters).shape_matrix j i) ∧
    trial_checks (matrixNDArray num_dimensions
      ((decode_lh_parameters_students_t parameters num_dimensions
        num_parameters).shape_matrix)) = none := by
  obtain ⟨hsym, hzero⟩ :=
    decode_shape_matrix_fold_inv parameters num_dimensions num_dimensions (le_refl _)
  have hsym' : ∀ i j, decode_shape_matrix parameters num_dimensions i j =
      decode_shape_matrix parameters num_dimensions j i := by
    intro i j
    rcases Nat.lt_or_ge i num_dimensions with hi | hi
    · rcases Nat.lt_or_ge j num_dimensions with hj | hj
      · exact hsym i j hi hj
      · exact (hzero i j (Or.inl hj)).trans (hzero j i (Or.inr hj)).symm
    · exact (hzero i j (Or.inr hi)).trans (hzero j i (Or.inl hi)).symm
  refine ⟨fun i j => hsym' i j, ?_⟩
  have hherm : hermitianEqualB
      (matrixNDArray num_dimensions (decode_shape_matrix parameters num_dimensions))
      num_dimensions num_dimensions = true := by
    rw [hermitianEqualB_iff]
    intro i _ j _
    simpa [matrixNDArray] using hsym' i j
  simp [trial_checks, matrixNDArray, hherm, decode_lh_parameters_students_t] at hherm ⊢
  simp [hherm]

/-! ### C6: successful allocations sum to 1; long-only ones are nonnegative -/

/-- Identification of the executable exact inverse with the Mathlib matrix
inverse over the field of rationals. -/
theorem matInv_eq_inv {n : ℕ} (A : Matrix (Fin n) (Fin n) ℚ) : matInv A = A⁻¹ := by
  rw [matInv, Matrix.inv_def, Ring.inverse_eq_inv]

/-- Row `k` of the long-only constraint system, `List.get` version. -/
theorem long_only_constraints_get (d k : ℕ)
    (hk : k < (long_only_constraints d).length) :
    (long_only_constraints d).get ⟨k, hk⟩ =
      (fun i : Fin d => constraintA_long_only d k (i : ℕ), constraintb_long_only d k) := by
  simp [long_only_constraints, List.get_eq_getElem]

/-- Row `k` of the long-short constraint system, `List.get` version. -/
theorem long_short_constraints_get (d k : ℕ)
    (hk : k < (long_short_constraints d).length) :
    (long_short_constraints d).get ⟨k, hk⟩ =
      (fun i : Fin d => constraintA_long_short d k (i : ℕ), constraintb_long_short k) := by
  simp [long_short_constraints, List.get_eq_getElem]

/-- Length of the long-only constraint system. -/
theorem long_only_constraints_length (d : ℕ) :
    (long_only_constraints d).length = 2 * d + 1 := by
  simp [long_only_constraints]

/-- Length of the long-short constraint system. -/
theorem long_short_constraints_length (d : ℕ) :
    (long_short_constraints d).length = 2 := by
  simp [long_short_constraints]

/-- Exactness of the closed-form branch: when the augmented matrix is
invertible, the last row of the linear system `A x = b` — a row of ones
with corner 0, and right-hand side 1 — forces the first `d` components of
`A⁻¹ b` to sum to exactly 1. -/
theorem closed_form_sum {d : ℕ} (covariance_matrix : Matrix (Fin d) (Fin d) ℚ)
    (mean_returns : Fin d → ℚ)
    (hdet : (covariance_matrix_expanded covariance_matrix).det ≠ 0) :
    ∑ i : Fin d, ((matInv (covariance_matrix_expanded covariance_matrix)).mulVec
      (mean_returns_expanded mean_returns)) i.castSucc = 1 := by
  set A := covariance_matrix_expanded covariance_matrix with hA
  set b := mean_returns_expanded mean_returns with hb
  rw [matInv_eq_inv]
  have hmul : A.mulVec (A⁻¹.mulVec b) = b := by
    rw [Matrix.mulVec_mulVec, Matrix.mul_nonsing_inv A (isUnit_iff_ne_zero.mpr hdet),
      Matrix.one_mulVec]
  have hlast : ∑ j, A (Fin.last d) j * (A⁻¹.mulVec b) j = b (Fin.last d) := by
    simpa [Matrix.mulVec, Matrix.dotProduct] using congrFun hmul (Fin.last d)
  rw [Fin.sum_univ_castSucc] at hlast
  have hAcast : ∀ j : Fin d, A (Fin.last d) j.castSucc = 1 := by
    intro j
    simp [hA, covariance_matrix_expanded, Fin.last, j.isLt]
  have hAlast : A (Fin.last d) (Fin.last d) = 0 := by
    simp [hA, covariance_matrix_expanded, Fin.last]
  have hblast : b (Fin.last d) = 1 := by
    simp [hb, mean_returns_expanded, Fin.last]
  rw [hAlast, hblast] at hlast
  simp only [hAcast, one_mul, zero_mul, add_zero] at hlast
  exact hlast

/-- Soundness of the executable feasibility check with respect to the
constraint-satisfaction predicate. -/
theorem feasibleB_satisfies {d : ℕ} (cons : List ((Fin d → ℚ) × ℚ)) (meq : ℕ)
    (x : Fin d → ℚ) (h : feasibleB cons meq x = true) : satisfiesConstraints cons meq x := by
  intro k hk
  have hmem : (k, cons.get ⟨k, hk⟩) ∈ cons.enum := by
    rw [List.mem_iff_getElem]
    exact ⟨k, by simp [hk], by simp [List.getElem_enum, List.get_eq_getElem]⟩
  have := (List.all_eq_true.mp h) _ hmem
  by_cases hkm : k < meq
  · rw [if_pos hkm]
    simpa [hkm] using this
  · rw [if_neg hkm]
    simpa [hkm] using this

/-- The feasibility-checking oracle honours the quadprog contract. -/
theorem feasibilityCheckingSolver_contract {d : ℕ} (x0 : Fin d → ℚ) :
    QPContract (feasibilityCheckingSolver x0) := by
  intro G a cons meq x h
  unfold feasibilityCheckingSolver at h
  by_cases hf : feasibleB cons meq x0 = true
  · rw [if_pos hf] at h
    obtain rfl : x0 = x := by simpa using h
    exact feasibleB_satisfies cons meq x0 hf
  · rw [if_neg (by simpa using hf)] at h
    simp at h

/-- C6.  For every input on which `calculate_optimal_fs` succeeds — either
solver branch, long-only or long-short, under the quadprog contract that a
returned point satisfies the constraints it was given — the returned
allocation vector (of length `d` by construction) sums to 1 within the
tolerance 1e-4 (in exact arithmetic the sum is exactly 1), and when the
long-only option was selected every component is at least `-1e-6` (in
exact arithmetic, at least 0). -/
theorem calculate_optimal_fs_sum_one {d : ℕ} (mean_returns : Fin d → ℚ)
    (covariance_matrix : Matrix (Fin d) (Fin d) ℚ) (long_only : Bool) (qp : QPSolver d)
    (hqp : QPContract qp) (fs : Fin d → ℚ) (lo : Bool)
    (h : calculate_optimal_fs mean_returns covariance_matrix long_only qp =
      FsResult.ok fs lo) :
    |(∑ i, fs i) - 1| ≤ 1 / 10000 ∧
    (lo = true → ∀ i, -(1 / 1000000 : ℚ) ≤ fs i) := by
  cases long_only with
  | true =>
    unfold calculate_optimal_fs at h
    simp only [Bool.true_eq_false, if_false] at h
    cases heq : qp covariance_matrix mean_returns (long_only_constraints d) 1 with
    | none => rw [heq] at h; simp at h
    | some x =>
      rw [heq] at h
      simp only [FsResult.ok.injEq] at h
      obtain ⟨hfs, hlo⟩ := h
      subst hfs
      have hsat := hqp _ _ _ _ _ heq
      have hk0 : (0 : ℕ) < (long_only_constraints d).length := by
        rw [long_only_constraints_length]; omega
      have h0 := hsat 0 hk0
      rw [long_only_constraints_get d 0 hk0, if_pos (by omega : (0:ℕ) < 1)] at h0
      have hrow0 : dotQ (fun i : Fin d => constraintA_long_only d 0 (i : ℕ)) x =
          ∑ i, x i := by
        unfold dotQ
        refine Finset.sum_congr rfl fun i _ => ?_
        show constraintA_long_only d 0 (i : ℕ) * x i = x i
        rw [constraintA_long_only_apply, if_pos ⟨rfl, i.isLt⟩, one_mul]
      rw [show ((fun i : Fin d => constraintA_long_only d 0 (i : ℕ), constraintb_long_only d 0).1)
          = (fun i : Fin d => constraintA_long_only d 0 (i : ℕ)) from rfl] at h0
      rw [hrow0] at h0
      rw [show ((fun i : Fin d => constraintA_long_only d 0 (i : ℕ), constraintb_long_only d 0).2)
          = constraintb_long_only d 0 from rfl, constraintb_long_only_apply,
        if_pos rfl] at h0
      constructor
      · rw [h0]
        norm_num
      · intro _ i
        have hd1 : 1 ≤ d := by
          have := i.isLt
          omega
        have hki : d + 1 + (i : ℕ) < (long_only_constraints d).length := by
          rw [long_only_constraints_length]
          have := i.isLt
          omega
        have hi := hsat (d + 1 + (i : ℕ)) hki
        rw [long_only_constraints_get d (d + 1 + (i : ℕ)) hki,
          if_neg (by omega : ¬ d + 1 + (i : ℕ) < 1)] at hi
        have hrowi : dotQ (fun j : Fin d =>
            constraintA_long_only d (d + 1 + (i : ℕ)) (j : ℕ)) x = x i := by
          unfold dotQ
          rw [Finset.sum_eq_single i]
          · show constraintA_long_only d (d + 1 + (i : ℕ)) (i : ℕ) * x i = x i
            rw [constraintA_long_only_apply]
            have := i.isLt
            rw [if_neg (by omega), if_neg (by omega), if_pos (by omega), one_mul]
          · intro j _ hji
            show constraintA_long_only d (d + 1 + (i : ℕ)) (j : ℕ) * x j = 0
            rw [constraintA_long_only_apply]
            have hj := j.isLt
            have hvij : (j : ℕ) ≠ (i : ℕ) := fun hc => hji (Fin.ext hc)
            rw [if_neg (by omega), if_neg (by omega), if_neg (by omega), zero_mul]
          · intro hmem
            exact absurd (Finset.mem_univ i) hmem
        rw [show ((fun j : Fin d => constraintA_long_only d (d + 1 + (i : ℕ)) (j : ℕ),
            constraintb_long_only d (d + 1 + (i : ℕ))).1)
            = (fun j : Fin d => constraintA_long_only d (d + 1 + (i : ℕ)) (j : ℕ)) from rfl,
          hrowi,
          show ((fun j : Fin d => constraintA_long_only d (d + 1 + (i : ℕ)) (j : ℕ),
            constraintb_long_only d (d + 1 + (i : ℕ))).2)
            = constraintb_long_only d (d + 1 + (i : ℕ)) from rfl,
          constraintb_long_only_apply, if_neg (by omega), if_neg (by omega)] at hi
        linarith
  | false =>
    unfold calculate_optimal_fs at h
    rw [if_pos rfl] at h
    by_cases hdet : 0 < (covariance_matrix_expanded covariance_matrix).det
    · rw [if_pos hdet] at h
      simp only [FsResult.ok.injEq] at h
      obtain ⟨hfs, hlo⟩ := h
      subst hfs
      constructor
      · rw [closed_form_sum covariance_matrix mean_returns (ne_of_gt hdet)]
        norm_num
      · intro hlo'
        rw [← hlo] at hlo'
        simp at hlo'
    · rw [if_neg hdet] at h
      cases heq : qp covariance_matrix mean_returns (long_short_constraints d) 0 with
      | none => rw [heq] at h; simp at h
      | some x =>
        rw [heq] at h
        simp only [FsResult.ok.injEq] at h
        obtain ⟨hfs, hlo⟩ := h
        subst hfs
        have hsat := hqp _ _ _ _ _ heq
        have hk0 : (0 : ℕ) < (long_short_constraints d).length := by
          rw [long_short_constraints_length]; omega
        have hk1 : (1 : ℕ) < (long_short_constraints d).length := by
          rw [long_short_constraints_length]; omega
        have h0 := hsat 0 hk0
        have h1 := hsat 1 hk1
        rw [long_short_constraints_get d 0 hk0, if_neg (by omega : ¬ (0:ℕ) < 0)] at h0
        rw [long_short_constraints_get d 1 hk1, if_neg (by omega : ¬ (1:ℕ) < 0)] at h1
        have hrow0 : dotQ (fun i : Fin d => constraintA_long_short d 0 (i : ℕ)) x =
            ∑ i, x i := by
          unfold dotQ
          refine Finset.sum_congr rfl fun i _ => ?_
          show constraintA_long_short d 0 (i : ℕ) * x i = x i
          rw [constraintA_long_short_apply, if_neg (by omega), one_mul]
        have hrow1 : dotQ (fun i : Fin d => constraintA_long_short d 1 (i : ℕ)) x =
            -∑ i, x i := by
          unfold dotQ
          rw [← Finset.sum_neg_distrib]
          refine Finset.sum_congr rfl fun i _ => ?_
          show constraintA_long_short d 1 (i : ℕ) * x i = -(x i)
          rw [constraintA_long_short_apply, if_pos ⟨rfl, i.isLt⟩]
          ring
        rw [show ((fun i : Fin d => constraintA_long_short d 0 (i : ℕ),
            constraintb_long_short 0).1) = (fun i : Fin d => constraintA_long_short d 0 (i : ℕ))
            from rfl, hrow0] at h0
        rw [show ((fun i : Fin d => constraintA_long_short d 1 (i : ℕ),
            constraintb_long_short 1).1) = (fun i : Fin d => constraintA_long_short d 1 (i : ℕ))
            from rfl, hrow1] at h1
        simp only [constraintb_long_short] at h0 h1
        norm_num at h0 h1
        constructor
        · have hsum : (∑ i, x i) = 1 := le_antisymm (by linarith) h0
          rw [hsum]
          norm_num
        · intro hlo'
          rw [← hlo] at hlo'
          simp at hlo'

/-- Witness for C6: the example scenario of the specification — two
assets, mean returns `[0.01, 0.02]`, covariance `diag(0.04, 0.09)`,
long-only — solved with a contract-honouring oracle returning the feasible
point `(1/2, 1/2)`: the call succeeds and the conclusion holds there. -/
theorem calculate_optimal_fs_sum_one_witness :
    calculate_optimal_fs (d := 2) (fun i => if i = 0 then 1/100 else 2/100)
        (Matrix.of fun i j => if i = j then (if i = 0 then 4/100 else 9/100) else 0) true
        (feasibilityCheckingSolver (fun _ => 1/2)) = FsResult.ok (fun _ => 1/2) true ∧
    |(∑ i : Fin 2, (fun _ : Fin 2 => (1/2 : ℚ)) i) - 1| ≤ 1 / 10000 ∧
    (∀ i : Fin 2, -(1 / 1000000 : ℚ) ≤ (fun _ : Fin 2 => (1/2 : ℚ)) i) := by
  have hfeas : feasibleB (long_only_constraints 2) 1 (fun _ => (1/2 : ℚ)) = true := by
    norm_num [feasibleB, long_only_constraints, List.range_succ, List.enum, List.enumFrom,
      List.all_cons, dotQ, Fin.sum_univ_two, constraintA_long_only_apply,
      constraintb_long_only_apply]
  have hcall : calculate_optimal_fs (d := 2) (fun i => if i = 0 then 1/100 else 2/100)
      (Matrix.of fun i j => if i = j then (if i = 0 then 4/100 else 9/100) else 0) true
      (feasibilityCheckingSolver (fun _ => 1/2)) = FsResult.ok (fun _ => 1/2) true := by
    unfold calculate_optimal_fs
    simp only [Bool.true_eq_false, if_false]
    unfold feasibilityCheckingSolver
    rw [if_pos hfeas]
  have h := calculate_optimal_fs_sum_one _ _ true _
    (feasibilityCheckingSolver_contract (fun _ => 1/2)) _ _ hcall
  exact ⟨hcall, h.1, fun i => h.2 rfl i⟩

/-! ### C7: the eigenvalue repair returns a symmetric PSD matrix -/

/-- C7.  For every square symmetric matrix that is not positive
semi-definite (some eigenvalue negative), `trial_pos_semidef_matrix` keeps
each eigenvalue `>= 0` unchanged, replaces each eigenvalue `< 0` with
`np.random.rand() / 10` — a draw in `[0, 0.1)`, from the documented
`[0, 1)` support of `np.random.rand` — reconstructs `P D' P⁻¹` from the
eigenvector matrix `P` (orthogonal, `P⁻¹ = Pᵀ`, the idealized
`np.linalg.eig` output for a real symmetric matrix), and the returned
matrix is exactly symmetric and passes `is_matrix_pos_semidef` for every
eigenvalue list produced by an orthogonal eigendecomposition of it. -/
theorem trial_pos_semidef_matrix_spec {n : ℕ} (M P : Matrix (Fin n) (Fin n) ℚ)
    (lam rand : Fin n → ℚ) (hP : Pᵀ * P = 1) (hM : M = P * Matrix.diagonal lam * Pᵀ)
    (hrand : ∀ i, 0 ≤ rand i ∧ rand i < 1) (hneg : ∃ i, lam i < 0) :
    ∃ adjusted : Fin n → ℚ,
      (∀ i, 0 ≤ lam i → adjusted i = lam i) ∧
      (∀ i, lam i < 0 → adjusted i = rand i / 10 ∧ 0 ≤ adjusted i ∧ adjusted i < 1 / 10) ∧
      trial_pos_semidef_matrix M lam P rand =
        Except.ok (P * Matrix.diagonal adjusted * Pᵀ) ∧
      (P * Matrix.diagonal adjusted * Pᵀ)ᵀ = P * Matrix.diagonal adjusted * Pᵀ ∧
      (∀ (mu : Fin n → ℚ) (Q : Matrix (Fin n) (Fin n) ℚ), Qᵀ * Q = 1 →
        P * Matrix.diagonal adjusted * Pᵀ = Q * Matrix.diagonal mu * Qᵀ →
        (is_matrix_pos_semidef (finMatrixNDArray (P * Matrix.diagonal adjusted * Pᵀ))
          (List.ofFn mu)).pass_test = true) := by
  classical
  set adjusted : Fin n → ℚ := fun i => if 0 ≤ lam i then lam i else rand i / 10 with hadj
  have hadjnn : ∀ i, 0 ≤ adjusted i := by
    intro i
    rw [hadj]
    by_cases hi : 0 ≤ lam i
    · simpa [hi] using hi
    · have := (hrand i).1
      simp only [if_neg hi]
      linarith
  -- generic symmetry of P * diagonal D * P transpose
  have hsymm : ∀ D : Fin n → ℚ, (P * Matrix.diagonal D * Pᵀ)ᵀ = P * Matrix.diagonal D * Pᵀ := by
    intro D
    simp [Matrix.transpose_mul, Matrix.diagonal_transpose, Matrix.mul_assoc]
  -- the input matrix passes the symmetry guard
  have hMsym : Mᵀ = M := by
    rw [hM]
    exact hsymm lam
  -- quadratic form of the repaired matrix is nonnegative
  have hq : ∀ x : Fin n → ℚ, 0 ≤ x ⬝ᵥ ((P * Matrix.diagonal adjusted * Pᵀ).mulVec x) := by
    intro x
    rw [← Matrix.mulVec_mulVec, ← Matrix.mulVec_mulVec]
    rw [Matrix.dotProduct_mulVec]
    have hvm : Matrix.vecMul x P = Pᵀ.mulVec x := (Matrix.mulVec_transpose P x).symm
    rw [hvm]
    set y := Pᵀ.mulVec x with hy
    rw [show (Matrix.diagonal adjusted).mulVec y = fun i => adjusted i * y i from by
      funext i; rw [Matrix.mulVec_diagonal]]
    unfold Matrix.dotProduct
    apply Finset.sum_nonneg
    intro i _
    have h1 : y i * (adjusted i * y i) = adjusted i * (y i * y i) := by ring
    rw [h1]
    exact mul_nonneg (hadjnn i) (mul_self_nonneg (y i))
  refine ⟨adjusted, ?_, ?_, ?_, hsymm adjusted, ?_⟩
  · intro i hi
    simp [hadj, hi]
  · intro i hi
    have hnle : ¬ 0 ≤ lam i := not_le.mpr hi
    refine ⟨by simp [hadj, hnle], hadjnn i, ?_⟩
    have := (hrand i).2
    simp only [hadj, if_neg hnle]
    linarith
  · unfold trial_pos_semidef_matrix
    rw [if_neg (show ¬ Mᵀ ≠ M from fun hc => hc hMsym)]
    have hPinv : matInv P = Pᵀ := by
      rw [matInv_eq_inv, Matrix.inv_eq_left_inv hP]
    rw [hPinv]
  · intro mu Q hQ hQM
    -- the diagonal of eigenvalues is congruent to the repaired matrix
    have hdiag : Matrix.diagonal mu =
        Qᵀ * (P * Matrix.diagonal adjusted * Pᵀ) * Q := by
      rw [hQM]
      rw [show Q * Matrix.diagonal mu * Qᵀ = Q * (Matrix.diagonal mu * Qᵀ) from
        Matrix.mul_assoc _ _ _]
      rw [← Matrix.mul_assoc Qᵀ Q (Matrix.diagonal mu * Qᵀ), hQ, Matrix.one_mul,
        Matrix.mul_assoc (Matrix.diagonal mu) Qᵀ Q, hQ, Matrix.mul_one]
    have key : ∀ (A : Matrix (Fin n) (Fin n) ℚ) (i : Fin n),
        (Qᵀ * A * Q) i i = (fun j => Q j i) ⬝ᵥ (A.mulVec (fun j => Q j i)) := by
      intro A i
      simp only [Matrix.mul_apply, Matrix.transpose_apply, Matrix.dotProduct,
        Matrix.mulVec, Finset.sum_mul, Finset.mul_sum]
      rw [Finset.sum_comm]
      exact Finset.sum_congr rfl fun k _ => Finset.sum_congr rfl fun j _ => by ring
    have hmu : ∀ i, 0 ≤ mu i := by
      intro i
      have h1 : mu i = (Qᵀ * (P * Matrix.diagonal adjusted * Pᵀ) * Q) i i := by
        rw [← hdiag, Matrix.diagonal_apply_eq]
      rw [h1, key]
      exact hq _
    -- the repaired matrix passes the full check
    have hherm : hermitianEqualB (finMatrixNDArray (P * Matrix.diagonal adjusted * Pᵀ))
        n n = true := by
      rw [hermitianEqualB_iff]
      intro i hi j hj
      have hsymm' := hsymm adjusted
      have := congrFun (congrFun hsymm' ⟨i, hi⟩) ⟨j, hj⟩
      simp only [Matrix.transpose_apply] at this
      simp [finMatrixNDArray, hi, hj]
      exact this.symm
    have hfind : (List.ofFn mu).find? (fun v => decide (v < 0)) = none := by
      rw [List.find?_eq_none]
      intro v hv
      rcases (List.mem_ofFn _ _).mp hv with ⟨i, rfl⟩
      simpa using not_lt.mpr (hmu i)
    have hres : is_matrix_pos_semidef (finMatrixNDArray (P * Matrix.diagonal adjusted * Pᵀ))
        (List.ofFn mu) = { pass_test := true, message := none } := by
      unfold is_matrix_pos_semidef
      rw [if_neg (show ¬ (finMatrixNDArray (P * Matrix.diagonal adjusted * Pᵀ)).shape.length ≠ 2
          from by simp [finMatrixNDArray]),
        if_neg (show ¬ (finMatrixNDArray (P * Matrix.diagonal adjusted * Pᵀ)).shape.getD 0 0 ≠
            (finMatrixNDArray (P * Matrix.diagonal adjusted * Pᵀ)).shape.getD 1 0
          from by simp [finMatrixNDArray]),
        if_neg (show ¬ ¬ hermitianEqualB (finMatrixNDArray (P * Matrix.diagonal adjusted * Pᵀ))
            ((finMatrixNDArray (P * Matrix.diagonal adjusted * Pᵀ)).shape.getD 0 0)
            ((finMatrixNDArray (P * Matrix.diagonal adjusted * Pᵀ)).shape.getD 1 0) = true
          from fun hc => hc hherm),
        hfind]
    rw [hres]
/-- Witness for C7: the rational symmetric non-PSD matrix
`[[-7/25, 24/25], [24/25, 7/25]]` with orthogonal eigenvector matrix
`[[3/5, -4/5], [4/5, 3/5]]`, eigenvalues `(1, -1)` and random draw `1/2`
for every index. -/
theorem trial_pos_semidef_matrix_spec_witness :
    (!![(3:ℚ)/5, -4/5; 4/5, 3/5])ᵀ * !![(3:ℚ)/5, -4/5; 4/5, 3/5] = 1 ∧
    !![(-7:ℚ)/25, 24/25; 24/25, 7/25] =
      !![(3:ℚ)/5, -4/5; 4/5, 3/5] *
        Matrix.diagonal (fun i : Fin 2 => if i = 0 then (1:ℚ) else -1) *
        (!![(3:ℚ)/5, -4/5; 4/5, 3/5])ᵀ ∧
    (∀ i : Fin 2, 0 ≤ (fun _ : Fin 2 => (1/2:ℚ)) i ∧ (fun _ : Fin 2 => (1/2:ℚ)) i < 1) ∧
    (∃ i : Fin 2, (fun i : Fin 2 => if i = 0 then (1:ℚ) else -1) i < 0) ∧
    (∃ adjusted : Fin 2 → ℚ,
      (∀ i, 0 ≤ (fun i : Fin 2 => if i = 0 then (1:ℚ) else -1) i →
        adjusted i = (fun i : Fin 2 => if i = 0 then (1:ℚ) else -1) i) ∧
      (∀ i, (fun i : Fin 2 => if i = 0 then (1:ℚ) else -1) i < 0 →
        adjusted i = (fun _ : Fin 2 => (1/2:ℚ)) i / 10 ∧ 0 ≤ adjusted i ∧ adjusted i < 1 / 10) ∧
      trial_pos_semidef_matrix !![(-7:ℚ)/25, 24/25; 24/25, 7/25]
          (fun i : Fin 2 => if i = 0 then (1:ℚ) else -1) !![(3:ℚ)/5, -4/5; 4/5, 3/5]
          (fun _ : Fin 2 => (1/2:ℚ)) =
        Except.ok (!![(3:ℚ)/5, -4/5; 4/5, 3/5] * Matrix.diagonal adjusted *
          (!![(3:ℚ)/5, -4/5; 4/5, 3/5])ᵀ) ∧
      (!![(3:ℚ)/5, -4/5; 4/5, 3/5] * Matrix.diagonal adjusted *
          (!![(3:ℚ)/5, -4/5; 4/5, 3/5])ᵀ)ᵀ =
        !![(3:ℚ)/5, -4/5; 4/5, 3/5] * Matrix.diagonal adjusted *
          (!![(3:ℚ)/5, -4/5; 4/5, 3/5])ᵀ ∧
      (∀ (mu : Fin 2 → ℚ) (Q : Matrix (Fin 2) (Fin 2) ℚ), Qᵀ * Q = 1 →
        !![(3:ℚ)/5, -4/5; 4/5, 3/5] * Matrix.diagonal adjusted *
          (!![(3:ℚ)/5, -4/5; 4/5, 3/5])ᵀ = Q * Matrix.diagonal mu * Qᵀ →
        (is_matrix_pos_semidef
          (finMatrixNDArray (!![(3:ℚ)/5, -4/5; 4/5, 3/5] * Matrix.diagonal adjusted *
            (!![(3:ℚ)/5, -4/5; 4/5, 3/5])ᵀ))
          (List.ofFn mu)).pass_test = true)) := by
  have hP : (!![(3:ℚ)/5, -4/5; 4/5, 3/5])ᵀ * !![(3:ℚ)/5, -4/5; 4/5, 3/5] = 1 := by
    ext i j
    fin_cases i <;> fin_cases j <;>
      simp [Matrix.mul_apply, Matrix.transpose_apply, Fin.sum_univ_two, Matrix.one_apply,
        Matrix.vecHead, Matrix.vecTail, Matrix.cons_val_zero, Matrix.cons_val_one,
        Matrix.head_cons, Function.comp] <;> norm_num
  have hM : !![(-7:ℚ)/25, 24/25; 24/25, 7/25] =
      !![(3:ℚ)/5, -4/5; 4/5, 3/5] *
        Matrix.diagonal (fun i : Fin 2 => if i = 0 then (1:ℚ) else -1) *
        (!![(3:ℚ)/5, -4/5; 4/5, 3/5])ᵀ := by
    ext i j
    fin_cases i <;> fin_cases j <;>
      simp [Matrix.mul_apply, Matrix.transpose_apply, Fin.sum_univ_two, Matrix.diagonal,
        Matrix.vecHead, Matrix.vecTail, Matrix.cons_val_zero, Matrix.cons_val_one,
        Matrix.head_cons, Function.comp] <;> norm_num
  have hrand : ∀ i : Fin 2, 0 ≤ (fun _ : Fin 2 => (1/2:ℚ)) i ∧
      (fun _ : Fin 2 => (1/2:ℚ)) i < 1 := by
    intro i
    norm_num
  have hneg : ∃ i : Fin 2, (fun i : Fin 2 => if i = 0 then (1:ℚ) else -1) i < 0 := by
    refine ⟨1, ?_⟩
    show (if (1 : Fin 2) = 0 then (1:ℚ) else -1) < 0
    rw [if_neg (by decide)]
    norm_num
  exact ⟨hP, hM, hrand, hneg,
    trial_pos_semidef_matrix_spec !![(-7:ℚ)/25, 24/25; 24/25, 7/25]
      !![(3:ℚ)/5, -4/5; 4/5, 3/5] (fun i : Fin 2 => if i = 0 then (1:ℚ) else -1)
      (fun _ : Fin 2 => (1/2:ℚ)) hP hM hrand hneg⟩
end KellyPortfolio
